import Mathlib

/-!
Verification development for the on-demand request dispatcher
(`ethcore/light/src/on_demand/mod.rs`).

The definitions below are a shallow embedding of the dispatcher code.
Pure Rust functions become Lean functions; the stateful methods on
`Pending` and `OnDemand` become explicit state-passing functions whose
channel sends and network calls are reported in their return values.
External collaborators (the networking layer's `request_from`, the
request layer's `respond_local` and response verification, the cache)
are passed in as function parameters, exactly as the spec declares them
out of scope.

Machine integers (`usize`, `u64`, block numbers, hashes) are modelled as
`Nat`: every quantity involved is a count or an identifier, never
subject to overflow-relevant arithmetic in the modelled code paths.
`SystemTime`/`Duration` become `Nat` instants under addition and
comparison, which is all the source uses.
-/

/-- Peer identifier (opaque in the source: `network::PeerId`). -/
abbrev PeerId := Nat

/-- Request identifier assigned by the networking layer (`net::ReqId`). -/
abbrev ReqId := Nat

/-- Advertised service capabilities of a peer.
Modelled from the spec: the `Capabilities` record is declared in the
light `net` module (not under `src/`); its fields are given by spec §3:
`serve_headers : bool`, `serve_chain_since : optional block number`,
`serve_state_since : optional block number`, `tx_relay : bool`. -/
structure Capabilities where
  serve_headers : Bool
  serve_chain_since : Option Nat
  serve_state_since : Option Nat
  tx_relay : Bool
deriving DecidableEq, Repr

/-- Relevant peer info (`struct Peer` in `mod.rs`). The `status` field of
the source struct is opaque chain-status data never consulted by the
modelled operations; it is carried as an uninterpreted `Nat`. -/
structure Peer where
  status : Nat
  capabilities : Capabilities
deriving DecidableEq, Repr

/-- The `can_serve_since` closure inside `Peer::can_fulfill`:
`(Some request_block, Some serve_since) => request_block >= serve_since`,
`(Some _, None) => false`, `(None, _) => true`. -/
def canServeSince : Option Nat → Option Nat → Bool
  | some request_block, some serve_since => decide (serve_since ≤ request_block)
  | some _, none => false
  | none, _ => true

/-- `Peer::can_fulfill` from `mod.rs`: checks
`local_caps.serve_headers >= request.serve_headers` (boolean implication)
and the two `can_serve_since` conditions. Note the source never consults
`tx_relay`. -/
def Peer.canFulfill (p : Peer) (request : Capabilities) : Bool :=
  let localCaps := p.capabilities
  -- `local_caps.serve_headers >= request.serve_headers` on booleans
  (!request.serve_headers || localCaps.serve_headers) &&
    canServeSince request.serve_chain_since localCaps.serve_chain_since &&
    canServeSince request.serve_state_since localCaps.serve_state_since

/-- One `_since` constraint as the spec words it: an absent required
bound is no constraint; a present required bound needs a present peer
bound that is ≤ the required one. -/
def sinceOk : Option Nat → Option Nat → Prop
  | none, _ => True
  | some _, none => False
  | some required, some own => own ≤ required

instance : ∀ r l, Decidable (sinceOk r l)
  | none, _ => isTrue trivial
  | some _, none => isFalse id
  | some _, some _ => Nat.decLe _ _

/-- The fulfillment relation exactly as the spec sentence for claim C1
states it: every required flag (both `serve_headers` and `tx_relay`)
is matched, and both `_since` bounds are satisfied. -/
def fulfillSpecClaim (p : Peer) (request : Capabilities) : Prop :=
  (request.serve_headers = true → p.capabilities.serve_headers = true) ∧
  (request.tx_relay = true → p.capabilities.tx_relay = true) ∧
  sinceOk request.serve_chain_since p.capabilities.serve_chain_since ∧
  sinceOk request.serve_state_since p.capabilities.serve_state_since

/-- The fulfillment relation with the `tx_relay` flag dropped, matching
what `Peer::can_fulfill` actually checks. -/
def fulfillSpecNoTxRelay (p : Peer) (request : Capabilities) : Prop :=
  (request.serve_headers = true → p.capabilities.serve_headers = true) ∧
  sinceOk request.serve_chain_since p.capabilities.serve_chain_since ∧
  sinceOk request.serve_state_since p.capabilities.serve_state_since

/-- Block header, reduced to the fields the dispatcher consults:
`number()` for capability guessing and the identifying hash. -/
structure Header where
  number : Nat
  hash : Nat
deriving DecidableEq, Repr

/-- Modelled from the spec: a header slot inside a checked request
(request crate, not under `src/`). Either the header is known
(`Result::Ok` under `as_ref()` in the source) or the request declares a
back-reference `(producer_index, field)` meaning "fill my header from
request `producer_index`'s output"; the `field` is the producer's block
hash, compared syntactically in `request_raw`. -/
inductive HeaderRef
  | resolved (header : Header)
  | unresolved (idx : Nat) (hash : Nat)
deriving DecidableEq, Repr

/-- Modelled from the spec: the `CheckedRequest` variants (request
module, not under `src/`), with payloads reduced to what the dispatcher
consults: header slots and identifying hashes. The variant list is the
one matched by `guess_capabilities` in `mod.rs`. -/
inductive CheckedRequest
  | headerProof (num : Nat)
  | headerByHash (hash : Nat)
  | headerWithAncestors (hash : Nat) (count : Nat)
  | transactionIndex (hash : Nat)
  | signal (hash : Nat)
  | body (header : HeaderRef)
  | receipts (header : HeaderRef)
  | account (header : HeaderRef) (address : Nat)
  | code (header : HeaderRef) (codeHash : Nat)
  | execution (header : HeaderRef)
deriving DecidableEq, Repr

/-- Modelled from the spec: extracted (verified) responses, one variant
per request variant. Only the `headerByHash` payload is consulted by the
dispatcher (for back-reference filling); the rest are opaque. -/
inductive Response
  | headerProof (proof : Nat)
  | headerByHash (header : Header)
  | headerWithAncestors (headers : List Header)
  | transactionIndex (index : Nat)
  | signal (sig : Nat)
  | body (payload : Nat)
  | receipts (payload : Nat)
  | account (payload : Nat)
  | code (payload : Nat)
  | execution (payload : Nat)
deriving DecidableEq, Repr

/-- Wire-level response payload (`basic_request::Response`). The
dispatcher never inspects it; only the external verification function
does, so it is an uninterpreted value. -/
abbrev WireResponse := Nat

/-- Modelled from the spec: `needs_header()` of the request layer — the
declared back-reference `(producer_index, field)` of a request whose
header slot is unresolved. -/
def needsHeader : CheckedRequest → Option (Nat × Nat)
  | .body (.unresolved i h) => some (i, h)
  | .receipts (.unresolved i h) => some (i, h)
  | .account (.unresolved i h) _ => some (i, h)
  | .code (.unresolved i h) _ => some (i, h)
  | .execution (.unresolved i h) => some (i, h)
  | _ => none

/-- Modelled from the spec: `provide_header(header)` of the request
layer — fill the header slot of a header-carrying request. -/
def provideHeader (r : CheckedRequest) (hdr : Header) : CheckedRequest :=
  match r with
  | .body _ => .body (.resolved hdr)
  | .receipts _ => .receipts (.resolved hdr)
  | .account _ a => .account (.resolved hdr) a
  | .code _ c => .code (.resolved hdr) c
  | .execution _ => .execution (.resolved hdr)
  | other => other

/-- Access the known header of a slot (`as_ref().ok()` in the source). -/
def headerOfRef : HeaderRef → Option Header
  | .resolved h => some h
  | .unresolved _ _ => none

/-- The `update_since` closure of `guess_capabilities`:
minimum with an absent current value meaning "take the new one". -/
def updateSince (current : Option Nat) (fresh : Nat) : Option Nat :=
  match current with
  | some x => some (min x fresh)
  | none => some fresh

/-- One step of the `guess_capabilities` scan (the body of its `for`
loop in `mod.rs`). -/
def guessStep (caps : Capabilities) (request : CheckedRequest) : Capabilities :=
  match request with
  | .headerProof _ => { caps with serve_headers := true }
  | .headerByHash _ => { caps with serve_headers := true }
  | .headerWithAncestors _ _ => { caps with serve_headers := true }
  | .transactionIndex _ => caps
  | .signal _ => { caps with serve_headers := true }
  | .body hr =>
    match headerOfRef hr with
    | some hdr => { caps with serve_chain_since := updateSince caps.serve_chain_since hdr.number }
    | none => caps
  | .receipts hr =>
    match headerOfRef hr with
    | some hdr => { caps with serve_chain_since := updateSince caps.serve_chain_since hdr.number }
    | none => caps
  | .account hr _ =>
    match headerOfRef hr with
    | some hdr => { caps with serve_state_since := updateSince caps.serve_state_since hdr.number }
    | none => caps
  | .code hr _ =>
    match headerOfRef hr with
    | some hdr => { caps with serve_state_since := updateSince caps.serve_state_since hdr.number }
    | none => caps
  | .execution hr =>
    match headerOfRef hr with
    | some hdr => { caps with serve_state_since := updateSince caps.serve_state_since hdr.number }
    | none => caps

/-- `guess_capabilities` from `mod.rs`: fold the per-request updates
over the batch starting from the all-absent capability record. -/
def guessCapabilities (requests : List CheckedRequest) : Capabilities :=
  requests.foldl guessStep ⟨false, none, none, false⟩

/-- Map with the element's position, starting at a given index. Used to
embed `iter_mut().skip(...)`-style in-place loops over request lists. -/
def mapWithIndex (f : Nat → CheckedRequest → CheckedRequest) :
    Nat → List CheckedRequest → List CheckedRequest
  | _, [] => []
  | j, r :: rest => f j r :: mapWithIndex f (j + 1) rest

/-- `Pending::update_header_refs` from `mod.rs`: when the response at
index `idx` is a `HeaderByHash`, walk the requests after `idx`
(`iter_mut().skip(idx + 1)`) and fill the header of every request whose
declared back-reference names `idx`. Any other response variant leaves
the requests untouched. -/
def updateHeaderRefs (requests : List CheckedRequest) (idx : Nat)
    (response : Response) : List CheckedRequest :=
  match response with
  | .headerByHash hdr =>
    mapWithIndex (fun j r =>
      if idx + 1 ≤ j then
        match needsHeader r with
        | some (i, _) => if i = idx then provideHeader r hdr else r
        | none => r
      else r) 0 requests
  | _ => requests

/-- One in-flight batch (`struct Pending` in `mod.rs`). The `requests`
batch of the source (`basic_request::Batch<CheckedRequest>`) is embedded
as the request list plus its `num_answered` cursor (`answered`); the
one-shot `sender` is not a field — every operation reports what it sends
in its return value. -/
structure Pending where
  requests : List CheckedRequest
  answered : Nat
  netRequests : List CheckedRequest
  requiredCapabilities : Capabilities
  responses : List Response
  badResponses : List PeerId
  baseQueryIndex : Nat
  remainingQueryCount : Nat
  queryIdHistory : List PeerId
  inactiveTimeLimit : Option Nat
deriving DecidableEq, Repr

/-- Modelled from the spec: `Batch::is_complete` of the request crate —
the cursor has reached the request count. -/
def Pending.isComplete (p : Pending) : Bool :=
  p.answered == p.requests.length

/-- Modelled from the spec: `fill_unanswered` of the request crate —
propagate newly-learned headers into all later requests that
back-reference an already-answered index (an index is answered exactly
when it has a response; headers are learned from `HeaderByHash`
outputs). -/
def Pending.fillUnanswered (p : Pending) : Pending :=
  { p with requests := p.requests.map (fun r =>
      match needsHeader r with
      | some (i, _) =>
        match p.responses.get? i with
        | some (.headerByHash hdr) => provideHeader r hdr
        | _ => r
      | none => r) }

/-- The body of the `while` loop of `Pending::answer_from_cache`, one
iteration per recursive call with fuel bounding the remaining requests.
`respondLocal` is the external request layer's `respond_local(cache)`
already applied to the shared cache. Source order per iteration:
`supply_response_unchecked` (cursor advance), `update_header_refs`,
`fill_unanswered`, then push the response. -/
def answerFromCacheGo (respondLocal : CheckedRequest → Option Response) :
    Nat → Pending → Pending
  | 0, p => p
  | fuel + 1, p =>
    if p.isComplete then p
    else
      match p.requests.get? p.answered with
      | none => p
      | some req =>
        match respondLocal req with
        | some response =>
          let idx := p.answered
          let p1 : Pending := { p with answered := p.answered + 1 }
          let p2 : Pending := { p1 with requests := updateHeaderRefs p1.requests idx response }
          let p3 := p2.fillUnanswered
          let p4 : Pending := { p3 with responses := p3.responses ++ [response] }
          answerFromCacheGo respondLocal fuel p4
        | none => p

/-- `Pending::answer_from_cache` from `mod.rs`: answer requests from the
cache while the head of the unanswered suffix has a local response. -/
def Pending.answerFromCache (p : Pending)
    (respondLocal : CheckedRequest → Option Response) : Pending :=
  answerFromCacheGo respondLocal (p.requests.length - p.answered) p

/-- Modelled from the spec: `into_net_request()` of the request layer.
The dispatcher treats wire requests opaquely (they are only handed to
`request_from`), so the projection keeps the request content. -/
def intoNetRequest (r : CheckedRequest) : CheckedRequest := r

/-- Modelled from the spec: `adjust_refs(mapping)` of the request layer
— renumber the declared back-reference of a request through `mapping`. -/
def adjustRefs (mapping : Nat → Nat) (r : CheckedRequest) : CheckedRequest :=
  match r with
  | .body (.unresolved i h) => .body (.unresolved (mapping i) h)
  | .receipts (.unresolved i h) => .receipts (.unresolved (mapping i) h)
  | .account (.unresolved i h) a => .account (.unresolved (mapping i) h) a
  | .code (.unresolved i h) c => .code (.unresolved (mapping i) h) c
  | .execution (.unresolved i h) => .execution (.unresolved (mapping i) h)
  | other => other

/-- `Pending::update_net_requests` from `mod.rs`: rebuild `net_requests`
from the unanswered suffix with back-references renumbered by
`idx - num_answered`, and recompute `required_capabilities` via
`guess_capabilities` on that suffix. -/
def Pending.updateNetRequests (p : Pending) : Pending :=
  let numAnswered := p.answered
  let suffix := p.requests.drop numAnswered
  let netReqs := suffix.map (fun r => adjustRefs (fun idx => idx - numAnswered) (intoNetRequest r))
  let capabilities := guessCapabilities suffix
  { p with netRequests := netReqs, requiredCapabilities := capabilities }

/-- `HashSet::insert` on the bad-responses set
(`Pending::add_bad_response`). -/
def insertPeer (s : List PeerId) (peer : PeerId) : List PeerId :=
  if peer ∈ s then s else s ++ [peer]

/-- `Pending::is_bad_response`: strict majority of the current peer
table gave a bad response. -/
def Pending.isBadResponse (p : Pending) (totalPeers : Nat) : Bool :=
  decide (totalPeers / 2 < p.badResponses.length)

/-- `Pending::supply_response` from `mod.rs`: delegate verification of
the wire response against the request at the cursor to the request
layer (`verify`, the external `Batch::supply_response` check already
applied to the cache); on success advance the cursor, update header
back-references at the index of the new response, and append it. On
failure the pending is unchanged (`none`). -/
def Pending.supplyResponse (p : Pending)
    (verify : CheckedRequest → WireResponse → Option Response)
    (response : WireResponse) : Option Pending :=
  match p.requests.get? p.answered with
  | none => none
  | some req =>
    match verify req response with
    | none => none
    | some extracted =>
      let idx := p.responses.length
      let p1 : Pending := { p with answered := p.answered + 1 }
      let p2 : Pending := { p1 with requests := updateHeaderRefs p1.requests idx extracted }
      some { p2 with responses := p2.responses ++ [extracted] }

/-- Error kinds surfaced on the completion channel (`error` module of
`mod.rs`). -/
inductive OnDemandError
  | faultyRequest (reqId : ReqId) (badResponses : Nat) (numProviders : Nat)
  | maxAttemptReach (queryIndex : Nat)
  | timeoutOnNewPeers (queryIndex : Nat) (remainingAttempts : Nat)
deriving DecidableEq, Repr

/-- Outcome of `submit_pending`: either the completion channel received
the full response vector (`try_complete` consumed the pending), or the
pending was pushed onto the waiting list — after `update_net_requests`
— for `attempt_dispatch` to pick up. -/
structure SubmitResult where
  completedWith : Option (List Response)
  pushedToWaiting : Option Pending
deriving DecidableEq, Repr

/-- `OnDemand::submit_pending` from `mod.rs`: absorb from cache; if
complete, send the responses (`try_complete`); otherwise
`update_net_requests`, push to the waiting list and attempt dispatch. -/
def submitPending (respondLocal : CheckedRequest → Option Response)
    (pending : Pending) : SubmitResult :=
  let p := pending.answerFromCache respondLocal
  if p.isComplete then ⟨some p.responses, none⟩
  else ⟨none, some p.updateNetRequests⟩

/-- Recoverable / unrecoverable network errors returned by
`request_from` (`net::Error`); `NoCredits` and `NotServer` are tried
past silently, other errors are logged and also tried past — the scan
behaviour is identical, all three are kept for fidelity. -/
inductive NetError
  | noCredits
  | notServer
  | other
deriving DecidableEq, Repr

/-- Result of the networking layer's `request_from`. -/
inductive ReqResult
  | ok (reqId : ReqId)
  | err (e : NetError)
deriving DecidableEq, Repr

/-- `BTreeSet::insert` on the query-id history: returns the set and
whether the element was newly inserted. -/
def historyInsert (s : List PeerId) (peer : PeerId) : List PeerId × Bool :=
  if peer ∈ s then (s, false) else (s ++ [peer], true)

/-- Record of one `request_from` call issued by the dispatch scan:
the peer asked, its table entry, and the query-id history as it stood
at the start of that scan step. -/
structure DispatchStep where
  peerId : PeerId
  peer : Peer
  historyBefore : List PeerId
deriving DecidableEq, Repr

/-- State left by the dispatch scan over the peer list, together with
the trace of `request_from` calls and the request id assigned when a
dispatch succeeded. -/
structure ScanResult where
  history : List PeerId
  remaining : Nat
  inactive : Option Nat
  trace : List DispatchStep
  dispatchedTo : Option ReqId
deriving DecidableEq, Repr

/-- The `for (peer_id, peer) in peers.iter().chain(...)` loop of
`OnDemand::dispatch_pending`, one element per recursive call: stop when
the counter is exhausted; skip peers already in the history
(`query_id_history.insert` returning `false`); skip peers that cannot
fulfill the required capabilities; otherwise decrement the counter,
clear the inactivity deadline and call `request_from` — returning on
`Ok(req_id)`, continuing on any error. -/
def scanLoop (requestFrom : PeerId → ReqResult) (required : Capabilities) :
    List (PeerId × Peer) → List PeerId → Nat → Option Nat → ScanResult
  | [], hist, remaining, inactive => ⟨hist, remaining, inactive, [], none⟩
  | (peerId, peer) :: rest, hist, remaining, inactive =>
    if remaining = 0 then ⟨hist, remaining, inactive, [], none⟩
    else
      let inserted := historyInsert hist peerId
      if inserted.2 then
        if peer.canFulfill required then
          let step : DispatchStep := ⟨peerId, peer, hist⟩
          match requestFrom peerId with
          | .ok reqId => ⟨inserted.1, remaining - 1, none, [step], some reqId⟩
          | .err _ =>
            let r := scanLoop requestFrom required rest inserted.1 (remaining - 1) none
            { r with trace := step :: r.trace }
        else scanLoop requestFrom required rest inserted.1 remaining inactive
      else scanLoop requestFrom required rest inserted.1 remaining inactive

/-- Dispatcher configuration relevant to a dispatch decision
(`base_retry_count`, `query_inactive_time_limit`). -/
structure OnDemandConfig where
  baseRetryCount : Nat
  queryInactiveTimeLimit : Option Nat
deriving DecidableEq, Repr

/-- Fate of one pending inside `dispatch_pending`: moved to
`in_transit` under the assigned request id, kept in the waiting list,
or terminated with an error sent on the completion channel. -/
inductive DispatchFate
  | dispatched (reqId : ReqId) (p : Pending)
  | kept (p : Pending)
  | errorSent (e : OnDemandError)
deriving DecidableEq, Repr

/-- The per-pending body of `OnDemand::dispatch_pending` (the closure
inside `filter_map`, for a pending whose receiver is not cancelled):
compute the starting offset (initialising the counter and the random
base index on the first attempt of a cycle), scan the peer table
starting there with wrap-around (`chain` + `skip(offset)` +
`take(num_peers)`), then apply the exhaustion / inactivity policy.
`now` stands for `SystemTime::now()` and `rand` for `rand::random()`.
The trace of `request_from` calls is returned alongside. -/
def dispatchOne (cfg : OnDemandConfig) (now : Nat) (rand : Nat)
    (requestFrom : PeerId → ReqResult) (peers : List (PeerId × Peer))
    (pending : Pending) : DispatchFate × List DispatchStep :=
  let numPeers := peers.length
  let historyLen := pending.queryIdHistory.length
  let initialised :=
    if historyLen = 0 then
      ({ pending with remainingQueryCount := cfg.baseRetryCount, baseQueryIndex := rand }, rand)
    else (pending, pending.baseQueryIndex + historyLen)
  let pending := initialised.1
  let offset := initialised.2 % max numPeers 1
  let initRemainingQueryCount := pending.remainingQueryCount
  let iter := ((peers ++ peers).drop offset).take numPeers
  let r := scanLoop requestFrom pending.requiredCapabilities iter
    pending.queryIdHistory pending.remainingQueryCount pending.inactiveTimeLimit
  let pending := { pending with
    queryIdHistory := r.history
    remainingQueryCount := r.remaining
    inactiveTimeLimit := r.inactive }
  let fate : DispatchFate :=
    match r.dispatchedTo with
    | some reqId => .dispatched reqId pending
    | none =>
      if pending.remainingQueryCount = 0 then
        .errorSent (.maxAttemptReach pending.answered)
      else if initRemainingQueryCount = pending.remainingQueryCount then
        match cfg.queryInactiveTimeLimit with
        | some limit =>
          match pending.inactiveTimeLimit with
          | some deadline =>
            if deadline < now then
              .errorSent (.timeoutOnNewPeers pending.answered pending.queryIdHistory.length)
            else .kept pending
          | none => .kept { pending with inactiveTimeLimit := some (now + limit) }
        | none => .kept pending
      else .kept pending
  (fate, r.trace)

/-- Outcome of the response-processing `for` loop of
`OnDemand::on_responses` (`procGo`): either every response was
consumed (`done`, with the count of verification failures seen), or the
majority rule fired and `set_as_faulty_request` was sent. -/
inductive ProcOutcome
  | done (p : Pending) (failures : Nat)
  | faulty (reqId : ReqId) (badResponses : Nat) (numProviders : Nat)
deriving DecidableEq, Repr

/-- The `for response in responses` loop of `OnDemand::on_responses`:
`supply_response` each wire response; on verification failure add the
sending peer (`ctx.peer()`, one fixed sender per message) to
`bad_responses` and stop with `FaultyRequest` as soon as the set
exceeds half the peer table. Returns the outcome and the number of
responses consumed. -/
def procGo (verify : CheckedRequest → WireResponse → Option Response)
    (sender : PeerId) (totalPeers : Nat) (reqId : ReqId) :
    Pending → List WireResponse → ProcOutcome × Nat
  | p, [] => (.done p 0, 0)
  | p, response :: rest =>
    match p.supplyResponse verify response with
    | some p1 =>
      let r := procGo verify sender totalPeers reqId p1 rest
      match r.1 with
      | .done q fails => (.done q fails, r.2 + 1)
      | .faulty a b c => (.faulty a b c, r.2 + 1)
    | none =>
      let p1 : Pending := { p with badResponses := insertPeer p.badResponses sender }
      if p1.isBadResponse totalPeers then
        (.faulty reqId p1.badResponses.length totalPeers, 1)
      else
        let r := procGo verify sender totalPeers reqId p1 rest
        match r.1 with
        | .done q fails => (.done q (fails + 1), r.2 + 1)
        | .faulty a b c => (.faulty a b c, r.2 + 1)

/-- Result of `OnDemand::on_responses` for a pending found in
`in_transit` under the answered request id: an error sent on the
channel, or the pending fed back through `submit_pending`. -/
inductive OnRespResult
  | errorSent (e : OnDemandError)
  | submitted (r : SubmitResult)
deriving DecidableEq, Repr

/-- `OnDemand::on_responses` from `mod.rs`, for the pending removed
from `in_transit` (an absent id is ignored before this point): empty
response slice with an exhausted counter fails with `no_response`;
a non-empty slice clears `query_id_history`; then the response loop
runs, and unless it declared the request faulty, `fill_unanswered` and
`submit_pending` re-process the remainder. -/
def onResponses (respondLocal : CheckedRequest → Option Response)
    (verify : CheckedRequest → WireResponse → Option Response)
    (sender : PeerId) (totalPeers : Nat) (reqId : ReqId)
    (pending : Pending) (responses : List WireResponse) : OnRespResult :=
  if responses.isEmpty ∧ pending.remainingQueryCount = 0 then
    .errorSent (.maxAttemptReach pending.answered)
  else
    let pending :=
      if responses.isEmpty then pending
      else { pending with queryIdHistory := [] }
    match (procGo verify sender totalPeers reqId pending responses).1 with
    | .faulty rid bad total => .errorSent (.faultyRequest rid bad total)
    | .done p _ => .submitted (submitPending respondLocal p.fillUnanswered)

/-- Modelled from the spec: `Builder::push` of the request crate (not
under `src/`) — fails with `NoSuchOutput` unless every declared
back-reference names a strictly earlier request in the batch built so
far (`count` requests have been pushed). -/
def builderPush (count : Nat) (request : CheckedRequest) : Bool :=
  match needsHeader request with
  | some (idx, _) => decide (idx < count)
  | none => true

/-- The `for (i, request) in requests.into_iter().enumerate()` loop of
`OnDemand::request_raw`: maintain the `header_producers` map from
request index to the block hash of the `HeaderByHash` request there;
a request declaring a header back-reference must find its producer
index in the map with a syntactically equal hash field, else the whole
submission fails with `NoSuchOutput`; producers are recorded after the
check (so a self-reference fails), and each request is pushed into the
builder. Returns `true` when the whole batch is accepted. -/
def producersUpdate (producers : List (Nat × Nat)) (i : Nat) :
    CheckedRequest → List (Nat × Nat)
  | .headerByHash h => producers ++ [(i, h)]
  | _ => producers

def headerOkCheck (producers : List (Nat × Nat)) : Option (Nat × Nat) → Bool
  | some (idx, hash) =>
    match List.lookup idx producers with
    | some f => hash == f
    | none => false
  | none => true

def requestRawGo (producers : List (Nat × Nat)) (i : Nat) :
    List CheckedRequest → Bool
  | [] => true
  | request :: rest =>
    if headerOkCheck producers (needsHeader request) then
      builderPush i request && requestRawGo (producersUpdate producers i request) (i + 1) rest
    else false

/-- The back-reference coherence check of `OnDemand::request_raw` over
a whole batch. -/
def requestRawOk (requests : List CheckedRequest) : Bool :=
  requestRawGo [] 0 requests

/-- Synchronous result of `OnDemand::request_raw`: the `NoSuchOutput`
error, an immediately-completed receiver for an empty batch, or a
receiver handed out with the built pending submitted. -/
inductive RequestRawResult
  | noSuchOutput
  | immediateEmpty
  | receiver (submitted : SubmitResult)
deriving DecidableEq, Repr

/-- `OnDemand::request_raw` from `mod.rs`: an empty batch completes at
once with an empty vector; otherwise validate back-references
synchronously (returning `NoSuchOutput` on failure, never a future-side
error), then build the pending — fresh history, empty bad-response set,
zero attempt counter, capabilities guessed over the full batch — and
submit it. -/
def requestRaw (respondLocal : CheckedRequest → Option Response)
    (requests : List CheckedRequest) : RequestRawResult :=
  if requests.isEmpty then .immediateEmpty
  else if requestRawOk requests then
    let pending : Pending :=
      { requests := requests
        answered := 0
        netRequests := requests.map intoNetRequest
        requiredCapabilities := guessCapabilities requests
        responses := []
        badResponses := []
        baseQueryIndex := 0
        remainingQueryCount := 0
        queryIdHistory := []
        inactiveTimeLimit := none }
    .receiver (submitPending respondLocal pending)
  else .noSuchOutput

/-- The producers map accumulated by `requestRawGo` over a processed
prefix whose first element sits at index `i`: the indices holding a
`HeaderByHash` request, paired with its hash field. -/
def producersOf (i : Nat) : List CheckedRequest → List (Nat × Nat)
  | [] => []
  | .headerByHash h :: rest => (i, h) :: producersOf (i + 1) rest
  | _ :: rest => producersOf (i + 1) rest

/-- A bad header back-reference at position `i` of a batch, in the
words of claim C7: the declared producer is absent from the batch, sits
at the same or a later index, or is not a `HeaderByHash` request with
the declared hash field. -/
def badBackRef (requests : List CheckedRequest) (i : Nat) : Prop :=
  ∃ idx hash r, requests.get? i = some r ∧ needsHeader r = some (idx, hash) ∧
    ¬ (idx < i ∧ requests.get? idx = some (.headerByHash hash))

/-- Whether a response is the `HeaderByHash` variant — the only variant
`update_header_refs` acts on. -/
def Response.isHeaderByHash : Response → Bool
  | .headerByHash _ => true
  | _ => false

/-- Spec-side characterisation for claim C6: the requests whose service
needs the `serve_headers` flag (the variants setting it in
`guess_capabilities`). -/
def headerServing : CheckedRequest → Bool
  | .headerProof _ => true
  | .headerByHash _ => true
  | .headerWithAncestors _ _ => true
  | .signal _ => true
  | _ => false

/-- Spec-side characterisation for claim C6: the block number a request
contributes to the `serve_chain_since` minimum — present exactly for
`Body` and `Receipts` requests whose header is already known. -/
def chainSinceNumber : CheckedRequest → Option Nat
  | .body (.resolved h) => some h.number
  | .receipts (.resolved h) => some h.number
  | _ => none

/-- Spec-side characterisation for claim C6: the block number a request
contributes to the `serve_state_since` minimum — present exactly for
`Account`, `Code` and `Execution` requests whose header is already
known. -/
def stateSinceNumber : CheckedRequest → Option Nat
  | .account (.resolved h) _ => some h.number
  | .code (.resolved h) _ => some h.number
  | .execution (.resolved h) => some h.number
  | _ => none

/-- Minimum of a list of block numbers, absent for the empty list. -/
def minOfList : List Nat → Option Nat
  | [] => none
  | n :: rest =>
    match minOfList rest with
    | some m => some (min n m)
    | none => some n

/-- Merge two optional minima. -/
def combineMin : Option Nat → Option Nat → Option Nat
  | none, b => b
  | some x, none => some x
  | some x, some y => some (min x y)

/-- Coherence between a producers map and the processed prefix of a
batch: the map associates exactly the indices holding a `HeaderByHash`
request with its hash field. -/
def producersInv (producers : List (Nat × Nat)) (pre : List CheckedRequest) : Prop :=
  ∀ idx h, List.lookup idx producers = some h ↔ pre.get? idx = some (.headerByHash h)

/-- A `request_from` implementation that refuses every call with
`NoCredits` (used by concrete witness scenarios). -/
def netRefuses : PeerId → ReqResult := fun _ => .err .noCredits

/-- A peer advertising every service since block 0. -/
def fullPeer : Peer := ⟨0, ⟨true, some 0, some 0, true⟩⟩

/-- A peer advertising no service at all. -/
def nullPeer : Peer := ⟨0, ⟨false, none, none, false⟩⟩

/-- A freshly submitted single-request pending (one `HeaderByHash`
request needing `serve_headers`), as `request_raw` would build it. -/
def basePending : Pending :=
  { requests := [.headerByHash 7]
    answered := 0
    netRequests := [.headerByHash 7]
    requiredCapabilities := ⟨true, none, none, false⟩
    responses := []
    badResponses := []
    baseQueryIndex := 0
    remainingQueryCount := 0
    queryIdHistory := []
    inactiveTimeLimit := none }

/-- A local-responder (cache) that never answers. -/
def cacheMiss : CheckedRequest → Option Response := fun _ => none

/-- A local-responder (cache) that answers every request with a header. -/
def cacheHeaderHit : CheckedRequest → Option Response :=
  fun _ => some (.headerByHash ⟨1, 7⟩)

/-- A verifier under which every wire response fails verification. -/
def verifyNever : CheckedRequest → WireResponse → Option Response := fun _ _ => none

/-- Configuration of the claim C5 scenario: default retry budget 10,
inactivity limit 100 time units. -/
def c5cfg : OnDemandConfig := ⟨10, some 100⟩

/-- The single incapable peer of the claim C5 scenario. -/
def c5peers : List (PeerId × Peer) := [(1, nullPeer)]

/-- The pending of the claim C5 scenario after the first dispatch
attempt: counter initialised to the full budget, the incapable peer in
the history, the inactivity deadline set. -/
def c5kept : Pending :=
  { basePending with
    remainingQueryCount := 10
    queryIdHistory := [1]
    inactiveTimeLimit := some 100 }

/-- A pending that has already collected bad responses from peers 8 and
9 (used by the majority-rule witness scenario). -/
def badTwoPending : Pending := { basePending with badResponses := [8, 9] }

/-- An in-flight pending with attempts left and one peer already tried
(used by the empty-response re-queue witness scenario). -/
def requeuePending : Pending :=
  { basePending with remainingQueryCount := 5, queryIdHistory := [4] }

theorem canServeSince_eq_true_iff (r l : Option Nat) :
    canServeSince r l = true ↔ sinceOk r l := by
  cases r <;> cases l <;> simp [canServeSince, sinceOk]

theorem bool_ge_iff (a b : Bool) : (!a || b) = true ↔ (a = true → b = true) := by
  cases a <;> cases b <;> simp

/-- Claim C1, counterexample: with a required set that demands only
`tx_relay` and a peer advertising nothing, `can_fulfill` returns `true`
although the required `tx_relay` flag is not matched — so `can_fulfill`
does not return true iff every required flag is matched. -/
theorem can_fulfill_ignores_tx_relay_cex :
    Peer.canFulfill ⟨0, ⟨false, none, none, false⟩⟩ ⟨false, none, none, true⟩ = true ∧
      ¬ fulfillSpecClaim ⟨0, ⟨false, none, none, false⟩⟩ ⟨false, none, none, true⟩ :=
  ⟨rfl, fun h => Bool.noConfusion (h.2.1 rfl)⟩

/-- Claim C1, amended: `Peer::can_fulfill(required)` returns true iff
the required `serve_headers` flag is matched and each required `_since`
lower bound is ≥ the peer's own advertised bound (an absent peer bound
with a present required bound fails; an absent required bound imposes
no constraint); the `tx_relay` flag is never consulted. -/
theorem can_fulfill_spec (p : Peer) (request : Capabilities) :
    p.canFulfill request = true ↔ fulfillSpecNoTxRelay p request := by
  unfold Peer.canFulfill fulfillSpecNoTxRelay
  simp only [Bool.and_eq_true, canServeSince_eq_true_iff, bool_ge_iff]
  tauto

/-- Claim C10: `update_header_refs` fills header back-references only
for a `Response::HeaderByHash`; every other response variant leaves the
request list untouched. Both call sites — the cache-absorption path
(`answerFromCacheGo`) and the network-response path
(`Pending.supplyResponse`) — propagate headers exclusively through this
function. -/
theorem update_header_refs_only_header_by_hash
    (requests : List CheckedRequest) (idx : Nat) (response : Response)
    (h : response.isHeaderByHash = false) :
    updateHeaderRefs requests idx response = requests := by
  cases response
  case headerByHash hd => simp [Response.isHeaderByHash] at h
  all_goals rfl

theorem update_header_refs_only_header_by_hash_witness :
    updateHeaderRefs [.body (.unresolved 0 5)] 0 (.headerProof 1) =
      [.body (.unresolved 0 5)] :=
  update_header_refs_only_header_by_hash [.body (.unresolved 0 5)] 0 (.headerProof 1) rfl

/-- Claim C4: across the dispatch scan, `remaining_query_count` drops by
exactly one per `request_from` attempt recorded in the trace — a peer
skipped because it is already in `query_id_history`, or because it lacks
the required capabilities, never decrements the counter. -/
theorem scan_remaining_accounting (requestFrom : PeerId → ReqResult)
    (required : Capabilities) (l : List (PeerId × Peer)) (hist : List PeerId)
    (remaining : Nat) (inactive : Option Nat) :
    (scanLoop requestFrom required l hist remaining inactive).remaining +
      (scanLoop requestFrom required l hist remaining inactive).trace.length = remaining := by
  induction l generalizing hist remaining inactive with
  | nil => simp [scanLoop]
  | cons entry rest ih =>
    obtain ⟨peerId, peer⟩ := entry
    by_cases hz : remaining = 0
    · simp [scanLoop, hz]
    · simp only [scanLoop, if_neg hz]
      by_cases hnew : (historyInsert hist peerId).2
      · simp only [if_pos hnew]
        by_cases hcap : peer.canFulfill required
        · simp only [if_pos hcap]
          cases hreq : requestFrom peerId with
          | ok reqId => simp; omega
          | err e =>
            have := ih (historyInsert hist peerId).1 (remaining - 1) none
            simp only [List.length_cons]
            omega
        · simp only [if_neg hcap]
          exact ih _ _ _
      · simp only [if_neg hnew]
        exact ih _ _ _

/-- Claim C5 (divergence evaluation): in the inactivity-timeout
scenario — one connected peer lacking the required capabilities,
`base_retry_count = 10`, `query_inactive_time_limit = 100` — the first
dispatch attempt keeps the pending with the deadline set and the full
budget of 10 intact, and the tick past the deadline resolves the future
with `TimeoutOnNewPeers(0, 1)`: the second field is
`query_id_history.len() = 1`, not the remaining attempt budget 10 that
the error variant's `remaining_attempts` field documents. -/
theorem timeout_on_new_peers_second_field_eval :
    (dispatchOne c5cfg 0 0 netRefuses c5peers basePending).1 = .kept c5kept ∧
      c5kept.remainingQueryCount = 10 ∧
      (dispatchOne c5cfg 150 0 netRefuses c5peers c5kept).1 =
        .errorSent (.timeoutOnNewPeers 0 1) := by
  refine ⟨by decide, rfl, by decide⟩

theorem combineMin_none_right (a : Option Nat) : combineMin a none = a := by
  cases a <;> rfl

theorem updateSince_eq_combineMin (a : Option Nat) (n : Nat) :
    updateSince a n = combineMin a (some n) := by
  cases a <;> rfl

theorem combineMin_assoc (a b c : Option Nat) :
    combineMin (combineMin a b) c = combineMin a (combineMin b c) := by
  cases a <;> cases b <;> cases c <;> simp [combineMin, Nat.min_assoc]

theorem minOfList_cons (n : Nat) (l : List Nat) :
    minOfList (n :: l) = combineMin (some n) (minOfList l) := by
  cases h : minOfList l <;> simp [minOfList, h, combineMin]

theorem guessStep_fold (reqs : List CheckedRequest) : ∀ caps : Capabilities,
    reqs.foldl guessStep caps =
      ⟨caps.serve_headers || reqs.any headerServing,
       combineMin caps.serve_chain_since (minOfList (reqs.filterMap chainSinceNumber)),
       combineMin caps.serve_state_since (minOfList (reqs.filterMap stateSinceNumber)),
       caps.tx_relay⟩ := by
  induction reqs with
  | nil =>
    intro caps
    simp [minOfList, combineMin_none_right]
  | cons r rest ih =>
    intro caps
    rw [List.foldl_cons, ih (guessStep caps r)]
    cases r with
    | headerProof n =>
      simp [guessStep, headerServing, chainSinceNumber, stateSinceNumber]
    | headerByHash h =>
      simp [guessStep, headerServing, chainSinceNumber, stateSinceNumber]
    | headerWithAncestors h c =>
      simp [guessStep, headerServing, chainSinceNumber, stateSinceNumber]
    | transactionIndex h =>
      simp [guessStep, headerServing, chainSinceNumber, stateSinceNumber]
    | signal h =>
      simp [guessStep, headerServing, chainSinceNumber, stateSinceNumber]
    | body hr =>
      cases hr with
      | resolved hd =>
        simp [guessStep, headerServing, chainSinceNumber, stateSinceNumber, headerOfRef,
          minOfList_cons, updateSince_eq_combineMin, combineMin_assoc]
      | unresolved i h =>
        simp [guessStep, headerServing, chainSinceNumber, stateSinceNumber, headerOfRef]
    | receipts hr =>
      cases hr with
      | resolved hd =>
        simp [guessStep, headerServing, chainSinceNumber, stateSinceNumber, headerOfRef,
          minOfList_cons, updateSince_eq_combineMin, combineMin_assoc]
      | unresolved i h =>
        simp [guessStep, headerServing, chainSinceNumber, stateSinceNumber, headerOfRef]
    | account hr a =>
      cases hr with
      | resolved hd =>
        simp [guessStep, headerServing, chainSinceNumber, stateSinceNumber, headerOfRef,
          minOfList_cons, updateSince_eq_combineMin, combineMin_assoc]
      | unresolved i h =>
        simp [guessStep, headerServing, chainSinceNumber, stateSinceNumber, headerOfRef]
    | code hr c =>
      cases hr with
      | resolved hd =>
        simp [guessStep, headerServing, chainSinceNumber, stateSinceNumber, headerOfRef,
          minOfList_cons, updateSince_eq_combineMin, combineMin_assoc]
      | unresolved i h =>
        simp [guessStep, headerServing, chainSinceNumber, stateSinceNumber, headerOfRef]
    | execution hr =>
      cases hr with
      | resolved hd =>
        simp [guessStep, headerServing, chainSinceNumber, stateSinceNumber, headerOfRef,
          minOfList_cons, updateSince_eq_combineMin, combineMin_assoc]
      | unresolved i h =>
        simp [guessStep, headerServing, chainSinceNumber, stateSinceNumber, headerOfRef]

/-- Claim C6: `update_net_requests` recomputes `required_capabilities`
over the unanswered suffix `requests[num_answered..]`: `serve_headers`
is the union of the header-serving needs of the suffix,
`serve_chain_since` the minimum block number over Body/Receipts requests
whose header is known, `serve_state_since` the minimum over
Account/Code/Execution requests whose header is known; an empty relevant
set leaves the field `none`/`false` (and `tx_relay` is never set). -/
theorem update_net_requests_capabilities (p : Pending) :
    p.updateNetRequests.requiredCapabilities =
      ⟨(p.requests.drop p.answered).any headerServing,
       minOfList ((p.requests.drop p.answered).filterMap chainSinceNumber),
       minOfList ((p.requests.drop p.answered).filterMap stateSinceNumber),
       false⟩ := by
  show guessCapabilities (p.requests.drop p.answered) = _
  unfold guessCapabilities
  rw [guessStep_fold]
  simp [combineMin]

theorem historyInsert_mem_self (s : List PeerId) (p : PeerId) :
    p ∈ (historyInsert s p).1 := by
  unfold historyInsert
  by_cases h : p ∈ s <;> simp [h]

theorem historyInsert_subset (s : List PeerId) (p : PeerId) :
    ∀ x ∈ s, x ∈ (historyInsert s p).1 := by
  intro x hx
  unfold historyInsert
  by_cases h : p ∈ s <;> simp [h, hx]

theorem historyInsert_snd_iff (s : List PeerId) (p : PeerId) :
    (historyInsert s p).2 = true ↔ p ∉ s := by
  unfold historyInsert
  by_cases h : p ∈ s <;> simp [h]

theorem scan_trace_mem (requestFrom : PeerId → ReqResult) (required : Capabilities) :
    ∀ (l : List (PeerId × Peer)) (hist : List PeerId) (remaining : Nat)
      (inactive : Option Nat) (s : DispatchStep),
      s ∈ (scanLoop requestFrom required l hist remaining inactive).trace →
      (s.peerId, s.peer) ∈ l ∧ s.peer.canFulfill required = true ∧
        s.peerId ∉ s.historyBefore ∧ (∀ x ∈ hist, x ∈ s.historyBefore) := by
  intro l
  induction l with
  | nil => intro hist remaining inactive s hs; simp [scanLoop] at hs
  | cons entry rest ih =>
    obtain ⟨peerId, peer⟩ := entry
    intro hist remaining inactive s hs
    by_cases hz : remaining = 0
    · simp [scanLoop, hz] at hs
    · simp only [scanLoop, if_neg hz] at hs
      by_cases hnew : (historyInsert hist peerId).2
      · simp only [if_pos hnew] at hs
        by_cases hcap : peer.canFulfill required
        · simp only [if_pos hcap] at hs
          cases hreq : requestFrom peerId with
          | ok reqId =>
            rw [hreq] at hs
            simp at hs
            subst hs
            exact ⟨List.mem_cons_self _ _, hcap,
              (historyInsert_snd_iff hist peerId).mp hnew, fun x hx => hx⟩
          | err e =>
            rw [hreq] at hs
            simp at hs
            rcases hs with hs | hs
            · subst hs
              exact ⟨List.mem_cons_self _ _, hcap,
                (historyInsert_snd_iff hist peerId).mp hnew, fun x hx => hx⟩
            · obtain ⟨h1, h2, h3, h4⟩ := ih _ _ _ s hs
              exact ⟨List.mem_cons_of_mem _ h1, h2, h3,
                fun x hx => h4 x (historyInsert_subset hist peerId x hx)⟩
        · simp only [if_neg hcap] at hs
          obtain ⟨h1, h2, h3, h4⟩ := ih _ _ _ s hs
          exact ⟨List.mem_cons_of_mem _ h1, h2, h3,
            fun x hx => h4 x (historyInsert_subset hist peerId x hx)⟩
      · simp only [if_neg hnew] at hs
        obtain ⟨h1, h2, h3, h4⟩ := ih _ _ _ s hs
        exact ⟨List.mem_cons_of_mem _ h1, h2, h3,
          fun x hx => h4 x (historyInsert_subset hist peerId x hx)⟩

theorem scan_trace_fresh (requestFrom : PeerId → ReqResult) (required : Capabilities)
    (l : List (PeerId × Peer)) (hist : List PeerId) (remaining : Nat)
    (inactive : Option Nat) (s : DispatchStep)
    (hs : s ∈ (scanLoop requestFrom required l hist remaining inactive).trace) :
    s.peerId ∉ hist := by
  obtain ⟨-, -, h3, h4⟩ := scan_trace_mem requestFrom required l hist remaining inactive s hs
  exact fun hmem => h3 (h4 _ hmem)

theorem scan_trace_nodup (requestFrom : PeerId → ReqResult) (required : Capabilities) :
    ∀ (l : List (PeerId × Peer)) (hist : List PeerId) (remaining : Nat)
      (inactive : Option Nat),
      ((scanLoop requestFrom required l hist remaining inactive).trace.map
        DispatchStep.peerId).Nodup := by
  intro l
  induction l with
  | nil => intro hist remaining inactive; simp [scanLoop]
  | cons entry rest ih =>
    obtain ⟨peerId, peer⟩ := entry
    intro hist remaining inactive
    by_cases hz : remaining = 0
    · simp [scanLoop, hz]
    · simp only [scanLoop, if_neg hz]
      by_cases hnew : (historyInsert hist peerId).2
      · simp only [if_pos hnew]
        by_cases hcap : peer.canFulfill required
        · simp only [if_pos hcap]
          cases hreq : requestFrom peerId with
          | ok reqId => simp
          | err e =>
            simp only [List.map_cons, List.nodup_cons]
            refine ⟨fun hmem => ?_, ih _ _ _⟩
            rw [List.mem_map] at hmem
            obtain ⟨s, hs, hpid⟩ := hmem
            have := scan_trace_fresh requestFrom required rest _ _ _ s hs
            rw [hpid] at this
            exact this (historyInsert_mem_self hist peerId)
        · simp only [if_neg hcap]; exact ih _ _ _
      · simp only [if_neg hnew]; exact ih _ _ _

theorem scan_sound_for_dispatch (requestFrom : PeerId → ReqResult)
    (required : Capabilities) (peers iter : List (PeerId × Peer))
    (hist : List PeerId) (remaining : Nat) (inactive : Option Nat)
    (hsub : ∀ e ∈ iter, e ∈ peers) :
    (∀ s ∈ (scanLoop requestFrom required iter hist remaining inactive).trace,
        s.peer.canFulfill required = true ∧ s.peerId ∉ s.historyBefore ∧
        (∀ x ∈ hist, x ∈ s.historyBefore) ∧ (s.peerId, s.peer) ∈ peers) ∧
    ((scanLoop requestFrom required iter hist remaining inactive).trace.map
      DispatchStep.peerId).Nodup := by
  refine ⟨fun s hs => ?_, scan_trace_nodup requestFrom required iter hist remaining inactive⟩
  obtain ⟨h1, h2, h3, h4⟩ := scan_trace_mem requestFrom required iter hist remaining inactive s hs
  exact ⟨h2, h3, h4, hsub _ h1⟩

/-- Claim C2: every `request_from` call issued by the dispatch scan on
behalf of a pending goes to a peer of the table that fulfills the
pending's `required_capabilities` and was not in `query_id_history` at
the start of that scan step (in particular not in the history the
pending entered the scan with), and no peer receives two calls within
one scan. -/
theorem dispatch_capable_and_fresh (cfg : OnDemandConfig) (now rand : Nat)
    (requestFrom : PeerId → ReqResult) (peers : List (PeerId × Peer)) (p : Pending) :
    (∀ s ∈ (dispatchOne cfg now rand requestFrom peers p).2,
        s.peer.canFulfill p.requiredCapabilities = true ∧
        s.peerId ∉ s.historyBefore ∧
        (∀ x ∈ p.queryIdHistory, x ∈ s.historyBefore) ∧
        (s.peerId, s.peer) ∈ peers) ∧
    (((dispatchOne cfg now rand requestFrom peers p).2).map DispatchStep.peerId).Nodup := by
  have hsub : ∀ off n, ∀ e ∈ ((peers ++ peers).drop off).take n, e ∈ peers := by
    intro off n e he
    have h1 : e ∈ (peers ++ peers).drop off := List.take_subset _ _ he
    have h2 : e ∈ peers ++ peers := List.drop_subset _ _ h1
    rcases List.mem_append.mp h2 with h | h <;> exact h
  by_cases h : p.queryIdHistory.length = 0
  · simp only [dispatchOne, h, if_true, if_false, ite_true, ite_false]
    exact scan_sound_for_dispatch requestFrom p.requiredCapabilities peers _ _ _ _ (hsub _ _)
  · simp only [dispatchOne, h, if_true, if_false, ite_true, ite_false]
    exact scan_sound_for_dispatch requestFrom p.requiredCapabilities peers _ _ _ _ (hsub _ _)

theorem dispatch_capable_and_fresh_witness :
    (DispatchStep.peer ⟨2, fullPeer, []⟩).canFulfill basePending.requiredCapabilities = true ∧
      (DispatchStep.peerId ⟨2, fullPeer, []⟩) ∉ (DispatchStep.historyBefore ⟨2, fullPeer, []⟩) ∧
      (∀ x ∈ basePending.queryIdHistory, x ∈ DispatchStep.historyBefore ⟨2, fullPeer, []⟩) ∧
      ((DispatchStep.peerId ⟨2, fullPeer, []⟩), DispatchStep.peer ⟨2, fullPeer, []⟩) ∈
        [((2 : PeerId), fullPeer)] :=
  (dispatch_capable_and_fresh ⟨10, none⟩ 0 0 netRefuses [(2, fullPeer)] basePending).1
    ⟨2, fullPeer, []⟩ (by decide)

theorem mem_insertPeer_self (s : List PeerId) (x : PeerId) : x ∈ insertPeer s x := by
  unfold insertPeer
  by_cases h : x ∈ s <;> simp [h]

theorem insertPeer_idem (s : List PeerId) (x : PeerId) :
    insertPeer (insertPeer s x) x = insertPeer s x := by
  unfold insertPeer
  by_cases h : x ∈ s <;> simp [h]

theorem supplyResponse_badResponses (p : Pending)
    (verify : CheckedRequest → WireResponse → Option Response) (wr : WireResponse)
    (q : Pending) (h : p.supplyResponse verify wr = some q) :
    q.badResponses = p.badResponses := by
  unfold Pending.supplyResponse at h
  cases hg : p.requests.get? p.answered with
  | none => rw [hg] at h; exact absurd h (by simp)
  | some req =>
    rw [hg] at h
    dsimp only at h
    cases hv : verify req wr with
    | none => rw [hv] at h; exact absurd h (by simp)
    | some extracted =>
      rw [hv] at h
      simp only [Option.some_inj] at h
      subst h
      rfl


theorem procGo_spec (verify : CheckedRequest → WireResponse → Option Response)
    (sender : PeerId) (totalPeers : Nat) (reqId : ReqId) :
    ∀ (responses : List WireResponse) (p : Pending),
      ((procGo verify sender totalPeers reqId p responses).2 ≤ responses.length) ∧
      (∀ rid b t, (procGo verify sender totalPeers reqId p responses).1 = .faulty rid b t →
        rid = reqId ∧ t = totalPeers ∧ totalPeers / 2 < b ∧
        b = (insertPeer p.badResponses sender).length ∧
        (∀ rest, procGo verify sender totalPeers reqId p
            (responses.take (procGo verify sender totalPeers reqId p responses).2 ++ rest) =
          (.faulty rid b t, (procGo verify sender totalPeers reqId p responses).2))) ∧
      (∀ q fails, (procGo verify sender totalPeers reqId p responses).1 = .done q fails →
        (procGo verify sender totalPeers reqId p responses).2 = responses.length ∧
        q.badResponses =
          (if fails = 0 then p.badResponses else insertPeer p.badResponses sender)) := by
  intro responses
  induction responses with
  | nil =>
    intro p
    refine ⟨Nat.le_refl 0, fun rid b t h => ?_, fun q fails h => ?_⟩
    · exact absurd h (by simp [procGo])
    · simp only [procGo, ProcOutcome.done.injEq] at h
      obtain ⟨hq, hf⟩ := h
      subst hq; subst hf
      exact ⟨rfl, by simp⟩
  | cons r rest ih =>
    intro p
    cases hsup : p.supplyResponse verify r with
    | some p1 =>
      have hbadeq := supplyResponse_badResponses p verify r p1 hsup
      obtain ⟨ih1, ih2, ih3⟩ := ih p1
      cases hrec : (procGo verify sender totalPeers reqId p1 rest).1 with
      | done q fails =>
        have hout : procGo verify sender totalPeers reqId p (r :: rest) =
            (.done q fails, (procGo verify sender totalPeers reqId p1 rest).2 + 1) := by
          simp only [procGo, hsup]
          rw [hrec]
        refine ⟨?_, fun rid b t h => ?_, fun q0 fails0 h => ?_⟩
        · rw [hout]; simpa using Nat.succ_le_succ ih1
        · rw [hout] at h; exact absurd h (by simp)
        · rw [hout] at h
          simp only [ProcOutcome.done.injEq] at h
          obtain ⟨hq, hf⟩ := h
          obtain ⟨hk, hbad⟩ := ih3 q fails hrec
          subst hq; subst hf
          rw [hout]
          exact ⟨by simp [hk], by rw [hbad, hbadeq]⟩
      | faulty a b c =>
        have hout : procGo verify sender totalPeers reqId p (r :: rest) =
            (.faulty a b c, (procGo verify sender totalPeers reqId p1 rest).2 + 1) := by
          simp only [procGo, hsup]
          rw [hrec]
        refine ⟨?_, fun rid b0 t h => ?_, fun q0 fails0 h => ?_⟩
        · rw [hout]; simpa using Nat.succ_le_succ ih1
        · rw [hout] at h
          simp only [ProcOutcome.faulty.injEq] at h
          obtain ⟨ha, hb, hc⟩ := h
          obtain ⟨hrid, ht, hlt, hlen, hind⟩ := ih2 a b c hrec
          subst ha; subst hb; subst hc
          refine ⟨hrid, ht, hlt, by rw [hlen, hbadeq], fun rest2 => ?_⟩
          rw [hout]
          rw [List.take_succ_cons, List.cons_append]
          simp only [procGo, hsup]
          rw [hind rest2]
        · rw [hout] at h; exact absurd h (by simp)
    | none =>
      by_cases hbad : (Pending.isBadResponse
          { p with badResponses := insertPeer p.badResponses sender } totalPeers)
      · have hout : procGo verify sender totalPeers reqId p (r :: rest) =
            (.faulty reqId (insertPeer p.badResponses sender).length totalPeers, 1) := by
          simp only [procGo, hsup]
          rw [if_pos hbad]
        refine ⟨?_, fun rid b t h => ?_, fun q0 fails0 h => ?_⟩
        · rw [hout]; simp
        · rw [hout] at h
          simp only [ProcOutcome.faulty.injEq] at h
          obtain ⟨ha, hb, hc⟩ := h
          have hlt : totalPeers / 2 < (insertPeer p.badResponses sender).length :=
            of_decide_eq_true hbad
          refine ⟨ha.symm, hc.symm, ?_, hb.symm, fun rest2 => ?_⟩
          · rw [← hb]; exact hlt
          · rw [hout]
            rw [List.take_succ_cons, List.take_zero, List.cons_append, List.nil_append]
            simp only [procGo, hsup]
            rw [if_pos hbad, ha, hb, hc]
        · rw [hout] at h; exact absurd h (by simp)
      · obtain ⟨ih1, ih2, ih3⟩ := ih { p with badResponses := insertPeer p.badResponses sender }
        cases hrec : (procGo verify sender totalPeers reqId
            { p with badResponses := insertPeer p.badResponses sender } rest).1 with
        | done q fails =>
          have hout : procGo verify sender totalPeers reqId p (r :: rest) =
              (.done q (fails + 1), (procGo verify sender totalPeers reqId
                { p with badResponses := insertPeer p.badResponses sender } rest).2 + 1) := by
            simp only [procGo, hsup]
            rw [if_neg hbad, hrec]
          refine ⟨?_, fun rid b t h => ?_, fun q0 fails0 h => ?_⟩
          · rw [hout]; simpa using Nat.succ_le_succ ih1
          · rw [hout] at h; exact absurd h (by simp)
          · rw [hout] at h
            simp only [ProcOutcome.done.injEq] at h
            obtain ⟨hq, hf⟩ := h
            obtain ⟨hk, hbadlen⟩ := ih3 q fails hrec
            subst hq
            rw [hout]
            refine ⟨by simp [hk], ?_⟩
            rw [← hf, if_neg (Nat.succ_ne_zero fails)]
            by_cases hz : fails = 0
            · rw [hbadlen, if_pos hz]
            · rw [hbadlen, if_neg hz]
              exact insertPeer_idem p.badResponses sender
        | faulty a b c =>
          have hout : procGo verify sender totalPeers reqId p (r :: rest) =
              (.faulty a b c, (procGo verify sender totalPeers reqId
                { p with badResponses := insertPeer p.badResponses sender } rest).2 + 1) := by
            simp only [procGo, hsup]
            rw [if_neg hbad, hrec]
          refine ⟨?_, fun rid b0 t h => ?_, fun q0 fails0 h => ?_⟩
          · rw [hout]; simpa using Nat.succ_le_succ ih1
          · rw [hout] at h
            simp only [ProcOutcome.faulty.injEq] at h
            obtain ⟨ha, hb, hc⟩ := h
            obtain ⟨hrid, ht, hlt, hlen, hind⟩ := ih2 a b c hrec
            subst ha; subst hb; subst hc
            refine ⟨hrid, ht, hlt, ?_, fun rest2 => ?_⟩
            · rw [hlen]
              show (insertPeer (insertPeer p.badResponses sender) sender).length =
                (insertPeer p.badResponses sender).length
              rw [insertPeer_idem]
            · rw [hout]
              rw [List.take_succ_cons, List.cons_append]
              simp only [procGo, hsup]
              rw [if_neg hbad]
              rw [hind rest2]
          · rw [hout] at h; exact absurd h (by simp)

/-- Claim C3: in the response loop of `on_responses`, every response
failing verification adds the (single) sending peer to `bad_responses`;
as soon as the set exceeds half the peer table the processing stops —
the outcome is independent of the unprocessed tail — and the future
resolves with `FaultyRequest(req_id, |bad_responses|, total_peers)`. -/
theorem on_responses_majority_rule
    (respondLocal : CheckedRequest → Option Response)
    (verify : CheckedRequest → WireResponse → Option Response)
    (sender : PeerId) (totalPeers : Nat) (reqId : ReqId)
    (pending : Pending) (responses : List WireResponse) :
    (∀ rid b t,
      (procGo verify sender totalPeers reqId pending responses).1 = .faulty rid b t →
        rid = reqId ∧ t = totalPeers ∧ totalPeers / 2 < b ∧
        b = (insertPeer pending.badResponses sender).length ∧
        ∀ rest, procGo verify sender totalPeers reqId pending
            (responses.take (procGo verify sender totalPeers reqId pending responses).2 ++ rest) =
          (.faulty rid b t, (procGo verify sender totalPeers reqId pending responses).2)) ∧
    (∀ q fails, (procGo verify sender totalPeers reqId pending responses).1 = .done q fails →
        q.badResponses = (if fails = 0 then pending.badResponses
          else insertPeer pending.badResponses sender)) ∧
    (responses ≠ [] → ∀ rid b t,
      (procGo verify sender totalPeers reqId
          { pending with queryIdHistory := [] } responses).1 = .faulty rid b t →
      onResponses respondLocal verify sender totalPeers reqId pending responses =
        .errorSent (.faultyRequest rid b t)) := by
  obtain ⟨-, h2, h3⟩ := procGo_spec verify sender totalPeers reqId responses pending
  refine ⟨h2, fun q fails h => (h3 q fails h).2, ?_⟩
  intro hne rid b t hfa
  cases responses with
  | nil => exact absurd rfl hne
  | cons a as =>
    unfold onResponses
    simp only [List.isEmpty_cons, Bool.false_eq_true, false_and, if_false, ite_false]
    rw [hfa]

theorem on_responses_majority_rule_witness :
    procGo verifyNever 3 4 42 badTwoPending
        ([(0 : WireResponse)].take (procGo verifyNever 3 4 42 badTwoPending [0]).2 ++ [5]) =
      (.faulty 42 3 4, (procGo verifyNever 3 4 42 badTwoPending [0]).2) :=
  ((on_responses_majority_rule cacheMiss verifyNever 3 4 42 badTwoPending [0]).1
    42 3 4 (by decide)).2.2.2.2 [5]

theorem mapWithIndex_length (f : Nat → CheckedRequest → CheckedRequest) :
    ∀ (j : Nat) (l : List CheckedRequest), (mapWithIndex f j l).length = l.length := by
  intro j l
  induction l generalizing j with
  | nil => rfl
  | cons r rest ih => simp [mapWithIndex, ih]

theorem updateHeaderRefs_length (requests : List CheckedRequest) (idx : Nat)
    (response : Response) :
    (updateHeaderRefs requests idx response).length = requests.length := by
  cases response <;> simp [updateHeaderRefs, mapWithIndex_length]

theorem afc_invariant (respondLocal : CheckedRequest → Option Response) :
    ∀ (fuel : Nat) (p : Pending), p.responses.length = p.answered →
      ((answerFromCacheGo respondLocal fuel p).responses.length =
        (answerFromCacheGo respondLocal fuel p).answered ∧
       (answerFromCacheGo respondLocal fuel p).requests.length = p.requests.length) := by
  intro fuel
  induction fuel with
  | zero => intro p h; exact ⟨h, rfl⟩
  | succ n ih =>
    intro p h
    unfold answerFromCacheGo
    by_cases hc : p.isComplete
    · rw [if_pos hc]; exact ⟨h, rfl⟩
    · rw [if_neg hc]
      split
      · exact ⟨h, rfl⟩
      · rename_i req hg
        split
        · rename_i response hr
          refine ?_
          show (answerFromCacheGo respondLocal n
              { (Pending.fillUnanswered
                  { p with
                    answered := p.answered + 1
                    requests := updateHeaderRefs p.requests p.answered response }) with
                responses := p.responses ++ [response] }).responses.length = _ ∧
            (answerFromCacheGo respondLocal n
              { (Pending.fillUnanswered
                  { p with
                    answered := p.answered + 1
                    requests := updateHeaderRefs p.requests p.answered response }) with
                responses := p.responses ++ [response] }).requests.length = p.requests.length
          have hstep := ih
            { (Pending.fillUnanswered
                { p with
                  answered := p.answered + 1
                  requests := updateHeaderRefs p.requests p.answered response }) with
              responses := p.responses ++ [response] }
            (by
              show (p.responses ++ [response]).length = p.answered + 1
              simp [h])
          refine ⟨hstep.1, ?_⟩
          rw [hstep.2]
          show (List.map _ (updateHeaderRefs p.requests p.answered response)).length = _
          rw [List.length_map, updateHeaderRefs_length]
        · exact ⟨h, rfl⟩

/-- Claim C8: when every request of a submitted batch is answered by the
local cache as it is reached in order (`answer_from_cache` completes the
batch), `submit_pending` resolves the caller's future with the full
response vector — one response per request — and the pending is never
pushed onto the waiting list, so no `request_from` call can be issued
for it. -/
theorem cache_resolvable_batch_completes
    (respondLocal : CheckedRequest → Option Response) (p : Pending)
    (hresp : p.responses.length = p.answered)
    (hdone : (p.answerFromCache respondLocal).isComplete = true) :
    submitPending respondLocal p =
      ⟨some (p.answerFromCache respondLocal).responses, none⟩ ∧
    (p.answerFromCache respondLocal).responses.length = p.requests.length := by
  have hinv := afc_invariant respondLocal (p.requests.length - p.answered) p hresp
  constructor
  · unfold submitPending
    rw [if_pos hdone]
  · have heq : (p.answerFromCache respondLocal).answered =
        (p.answerFromCache respondLocal).requests.length := by
      have := hdone
      unfold Pending.isComplete at this
      simpa using this
    unfold Pending.answerFromCache at heq ⊢
    rw [hinv.1, heq, hinv.2]

theorem cache_resolvable_batch_completes_witness :
    submitPending cacheHeaderHit basePending =
      ⟨some (basePending.answerFromCache cacheHeaderHit).responses, none⟩ ∧
    (basePending.answerFromCache cacheHeaderHit).responses.length =
      basePending.requests.length :=
  cache_resolvable_batch_completes cacheHeaderHit basePending rfl (by decide)

theorem fillUnanswered_isComplete (p : Pending) :
    p.fillUnanswered.isComplete = p.isComplete := by
  unfold Pending.isComplete
  show (p.answered == (List.map _ p.requests).length) = _
  rw [List.length_map]

/-- Claim C9: a pending taken out of `in_transit` by `on_responses`
with an empty response slice and a non-exhausted attempt counter sends
no error on the completion channel, keeps `query_id_history` exactly as
it was (only a non-empty response clears it), and — as long as the
cache still cannot answer the request at the cursor and the batch is
incomplete — is pushed back onto the waiting list (after
`fill_unanswered` and `update_net_requests`) for re-dispatch. -/
theorem empty_response_requeue
    (respondLocal : CheckedRequest → Option Response)
    (verify : CheckedRequest → WireResponse → Option Response)
    (sender : PeerId) (totalPeers : Nat) (reqId : ReqId) (p : Pending)
    (hrem : p.remainingQueryCount ≠ 0)
    (hmiss : ∀ r, p.fillUnanswered.requests.get? p.fillUnanswered.answered = some r →
      respondLocal r = none)
    (hinc : p.isComplete = false) :
    onResponses respondLocal verify sender totalPeers reqId p [] =
      .submitted ⟨none, some p.fillUnanswered.updateNetRequests⟩ ∧
    p.fillUnanswered.updateNetRequests.queryIdHistory = p.queryIdHistory := by
  have hic : p.fillUnanswered.isComplete = false := by
    rw [fillUnanswered_isComplete]; exact hinc
  have hafc : p.fillUnanswered.answerFromCache respondLocal = p.fillUnanswered := by
    unfold Pending.answerFromCache
    cases hfuel : p.fillUnanswered.requests.length - p.fillUnanswered.answered with
    | zero => rfl
    | succ n =>
      unfold answerFromCacheGo
      rw [if_neg (by rw [hic]; exact Bool.false_ne_true)]
      split
      · rfl
      · rename_i req hg
        rw [hmiss req hg]
  refine ⟨?_, rfl⟩
  unfold onResponses
  rw [if_neg (fun hcon => hrem hcon.2)]
  simp only [List.isEmpty_nil, if_true, ite_true]
  show (match (procGo verify sender totalPeers reqId p []).1 with
    | .faulty rid bad total => OnRespResult.errorSent (.faultyRequest rid bad total)
    | .done q _ => OnRespResult.submitted (submitPending respondLocal q.fillUnanswered)) = _
  show OnRespResult.submitted (submitPending respondLocal p.fillUnanswered) = _
  unfold submitPending
  rw [hafc]
  rw [if_neg (by rw [hic]; exact Bool.false_ne_true)]

theorem empty_response_requeue_witness :
    onResponses cacheMiss verifyNever 3 1 42 requeuePending [] =
      .submitted ⟨none, some requeuePending.fillUnanswered.updateNetRequests⟩ ∧
    requeuePending.fillUnanswered.updateNetRequests.queryIdHistory =
      requeuePending.queryIdHistory :=
  empty_response_requeue cacheMiss verifyNever 3 1 42 requeuePending
    (by decide) (fun r _ => rfl) (by decide)

theorem lookup_append (a : Nat) (l1 l2 : List (Nat × Nat)) :
    List.lookup a (l1 ++ l2) =
      match List.lookup a l1 with
      | some v => some v
      | none => List.lookup a l2 := by
  induction l1 with
  | nil => simp [List.lookup]
  | cons kv rest ih =>
    obtain ⟨k, v⟩ := kv
    by_cases h : (a == k)
    · simp [List.lookup_cons, h]
    · rw [Bool.not_eq_true] at h
      simp [List.lookup_cons, h, ih]

theorem producersInv_nil : producersInv [] [] := by
  intro idx h
  simp [List.lookup]

theorem lookup_none_of_inv_ge (producers : List (Nat × Nat)) (pre : List CheckedRequest)
    (hinv : producersInv producers pre) (idx : Nat) (hge : pre.length ≤ idx) :
    List.lookup idx producers = none := by
  cases hl : List.lookup idx producers with
  | none => rfl
  | some v =>
    have hget := (hinv idx v).mp hl
    have hlt := (List.get?_eq_some.mp hget).1
    omega

theorem producersInv_snoc_hbh (producers : List (Nat × Nat)) (pre : List CheckedRequest)
    (hh : Nat) (hinv : producersInv producers pre) :
    producersInv (producers ++ [(pre.length, hh)]) (pre ++ [.headerByHash hh]) := by
  intro idx h
  rw [lookup_append]
  by_cases hlt : idx < pre.length
  · rw [List.get?_append hlt]
    cases hl : List.lookup idx producers with
    | some v =>
      have hgv := (hinv idx v).mp hl
      constructor
      · intro hcon
        have hv : v = h := Option.some.inj hcon
        rw [← hv]; exact hgv
      · intro hget
        have hvh : CheckedRequest.headerByHash v = CheckedRequest.headerByHash h :=
          Option.some.inj (hgv.symm.trans hget)
        have hv : v = h := by injection hvh
        show some v = some h
        rw [hv]
    | none =>
      constructor
      · intro hcon
        rw [List.lookup_cons] at hcon
        have hne : (idx == pre.length) = false := by
          simp only [beq_eq_false_iff_ne]; omega
        rw [hne] at hcon
        exact absurd hcon (by simp [List.lookup])
      · intro hget
        have := (hinv idx h).mpr hget
        rw [hl] at this
        exact absurd this (by simp)
  · have hl := lookup_none_of_inv_ge producers pre hinv idx (Nat.le_of_not_lt hlt)
    rw [hl]
    rw [List.get?_append_right (Nat.le_of_not_lt hlt)]
    by_cases heq : idx = pre.length
    · subst heq
      rw [List.lookup_cons]
      simp
    · have hne : (idx == pre.length) = false := by
        simp only [beq_eq_false_iff_ne]; exact heq
      rw [List.lookup_cons, hne]
      have hgt : 1 ≤ idx - pre.length := by omega
      constructor
      · intro hcon; exact absurd hcon (by simp [List.lookup])
      · intro hget
        rw [List.get?_eq_none.mpr (by simpa using hgt)] at hget
        exact absurd hget (by simp)

theorem producersInv_snoc_other (producers : List (Nat × Nat)) (pre : List CheckedRequest)
    (r : CheckedRequest) (hr : ∀ hh, r ≠ .headerByHash hh)
    (hinv : producersInv producers pre) :
    producersInv producers (pre ++ [r]) := by
  intro idx h
  by_cases hlt : idx < pre.length
  · rw [List.get?_append hlt]; exact hinv idx h
  · have hl := lookup_none_of_inv_ge producers pre hinv idx (Nat.le_of_not_lt hlt)
    rw [hl]
    constructor
    · intro hcon; exact absurd hcon (by simp)
    · intro hget
      rw [List.get?_append_right (Nat.le_of_not_lt hlt)] at hget
      by_cases heq : idx = pre.length
      · subst heq
        rw [Nat.sub_self] at hget
        have : r = .headerByHash h := Option.some.inj hget
        exact absurd this (hr h)
      · have hgt : 1 ≤ idx - pre.length := by omega
        rw [List.get?_eq_none.mpr (by simpa using hgt)] at hget
        exact absurd hget (by simp)

theorem producersInv_step (producers : List (Nat × Nat)) (pre : List CheckedRequest)
    (request : CheckedRequest) (hinv : producersInv producers pre) :
    producersInv (producersUpdate producers pre.length request) (pre ++ [request]) := by
  cases request <;>
    first
    | exact producersInv_snoc_hbh producers pre _ hinv
    | exact producersInv_snoc_other producers pre _ (fun _ hcon => by cases hcon) hinv

theorem ne_headerByHash_of_needsHeader (r : CheckedRequest) (x : Nat × Nat)
    (h : needsHeader r = some x) : ∀ hh, r ≠ .headerByHash hh := by
  intro hh hcon
  subst hcon
  simp [needsHeader] at h

theorem requestRawGo_cons (producers : List (Nat × Nat)) (i : Nat)
    (request : CheckedRequest) (rest : List CheckedRequest) :
    requestRawGo producers i (request :: rest) =
      if headerOkCheck producers (needsHeader request) then
        builderPush i request &&
          requestRawGo (producersUpdate producers i request) (i + 1) rest
      else false := rfl

theorem bad_shift (full : List CheckedRequest) (n : Nat)
    (hnotbad : ¬ badBackRef full n) :
    (∃ k, badBackRef full (n + 1 + k)) ↔ (∃ k, badBackRef full (n + k)) := by
  constructor
  · rintro ⟨k, hk⟩
    exact ⟨k + 1, by rw [show n + (k + 1) = n + 1 + k by omega]; exact hk⟩
  · rintro ⟨k, hk⟩
    cases k with
    | zero => rw [Nat.add_zero] at hk; exact absurd hk hnotbad
    | succ j => exact ⟨j, by rw [show n + 1 + j = n + (j + 1) by omega]; exact hk⟩

theorem requestRawGo_false_iff :
    ∀ (rest pre : List CheckedRequest) (producers : List (Nat × Nat)),
      producersInv producers pre →
      (requestRawGo producers pre.length rest = false ↔
        ∃ k, badBackRef (pre ++ rest) (pre.length + k)) := by
  intro rest
  induction rest with
  | nil =>
    intro pre producers hinv
    constructor
    · intro h; exact absurd h (by simp [requestRawGo])
    · rintro ⟨k, idx, hash, r, hget, -, -⟩
      rw [List.append_nil] at hget
      have hlt := (List.get?_eq_some.mp hget).1
      omega
  | cons request rest ih =>
    intro pre producers hinv
    have hgetmid : (pre ++ request :: rest).get? pre.length = some request := by
      rw [List.get?_append_right (Nat.le_refl pre.length), Nat.sub_self]
      rfl
    have hih := ih (pre ++ [request]) (producersUpdate producers pre.length request)
      (producersInv_step producers pre request hinv)
    simp only [List.length_append, List.length_singleton] at hih
    simp only [List.append_assoc, List.singleton_append] at hih
    cases hn : needsHeader request with
    | none =>
      have hbp : builderPush pre.length request = true := by
        unfold builderPush; rw [hn]
      have hLHS : requestRawGo producers pre.length (request :: rest) =
          requestRawGo (producersUpdate producers pre.length request)
            (pre.length + 1) rest := by
        rw [requestRawGo_cons, hn, hbp]
        rw [if_pos (show headerOkCheck producers none = true from rfl), Bool.true_and]
      have hnotbad : ¬ badBackRef (pre ++ request :: rest) pre.length := by
        rintro ⟨idx, hash, r, hget, hneed, -⟩
        rw [hgetmid] at hget
        have hr : r = request := (Option.some.inj hget).symm
        subst hr
        rw [hn] at hneed
        exact absurd hneed (by simp)
      rw [hLHS, hih]
      exact bad_shift _ _ hnotbad
    | some pair =>
      obtain ⟨idx0, hash0⟩ := pair
      cases hl : List.lookup idx0 producers with
      | some f =>
        by_cases hf : hash0 = f
        · subst hf
          have hgetpre : pre.get? idx0 = some (.headerByHash hash0) :=
            (hinv idx0 hash0).mp hl
          have hlt : idx0 < pre.length := (List.get?_eq_some.mp hgetpre).1
          have hbp : builderPush pre.length request = true := by
            unfold builderPush; rw [hn]; exact decide_eq_true hlt
          have hLHS : requestRawGo producers pre.length (request :: rest) =
              requestRawGo (producersUpdate producers pre.length request)
                (pre.length + 1) rest := by
            have hcond : headerOkCheck producers (some (idx0, hash0)) = true := by
              show (match List.lookup idx0 producers with
                | some f => hash0 == f
                | none => false) = true
              rw [hl]
              exact beq_self_eq_true hash0
            rw [requestRawGo_cons, hn, hbp]
            rw [if_pos hcond, Bool.true_and]
          have hnotbad : ¬ badBackRef (pre ++ request :: rest) pre.length := by
            rintro ⟨idx, hash, r, hget, hneed, hnot⟩
            rw [hgetmid] at hget
            have hr : r = request := (Option.some.inj hget).symm
            subst hr
            rw [hn] at hneed
            have hpair := Option.some.inj hneed
            have hidx : idx0 = idx := congrArg Prod.fst hpair
            have hhash : hash0 = hash := congrArg Prod.snd hpair
            subst hidx; subst hhash
            exact hnot ⟨hlt, by rw [List.get?_append hlt]; exact hgetpre⟩
          rw [hLHS, hih]
          exact bad_shift _ _ hnotbad
        · have hbeq : (hash0 == f) = false := beq_eq_false_iff_ne.mpr hf
          have hLHS : requestRawGo producers pre.length (request :: rest) = false := by
            have hcond : headerOkCheck producers (some (idx0, hash0)) = false := by
              show (match List.lookup idx0 producers with
                | some f => hash0 == f
                | none => false) = false
              rw [hl]
              exact hbeq
            rw [requestRawGo_cons, hn]
            rw [if_neg (by rw [hcond]; exact Bool.false_ne_true)]
          rw [hLHS]
          constructor
          · intro _
            refine ⟨0, idx0, hash0, request, by rw [Nat.add_zero]; exact hgetmid, hn, ?_⟩
            rintro ⟨hlt, hget⟩
            rw [Nat.add_zero] at hlt
            rw [List.get?_append hlt] at hget
            have hlk := (hinv idx0 hash0).mpr hget
            rw [hl] at hlk
            exact hf (Option.some.inj hlk).symm
          · intro _; rfl
      | none =>
        have hLHS : requestRawGo producers pre.length (request :: rest) = false := by
          have hcond : headerOkCheck producers (some (idx0, hash0)) = false := by
            show (match List.lookup idx0 producers with
              | some f => hash0 == f
              | none => false) = false
            rw [hl]
          rw [requestRawGo_cons, hn]
          rw [if_neg (by rw [hcond]; exact Bool.false_ne_true)]
        rw [hLHS]
        constructor
        · intro _
          refine ⟨0, idx0, hash0, request, by rw [Nat.add_zero]; exact hgetmid, hn, ?_⟩
          rintro ⟨hlt, hget⟩
          rw [Nat.add_zero] at hlt
          rw [List.get?_append hlt] at hget
          have hlk := (hinv idx0 hash0).mpr hget
          rw [hl] at hlk
          exact absurd hlk (by simp)
        · intro _; rfl

/-- Claim C7: `request_raw` returns `NoSuchOutput` synchronously — as
its return value, never through the returned receiver — exactly when
some submitted request declares a header back-reference whose producer
index is absent from the batch, occurs at the same or a later index, or
whose producing request is not the `HeaderByHash` request with the
declared hash field; otherwise it hands out a receiver. -/
theorem request_raw_no_such_output_iff
    (respondLocal : CheckedRequest → Option Response)
    (requests : List CheckedRequest) (hne : requests ≠ []) :
    requestRaw respondLocal requests = .noSuchOutput ↔ ∃ i, badBackRef requests i := by
  have hgo := requestRawGo_false_iff requests [] [] producersInv_nil
  simp only [List.nil_append, List.length_nil, Nat.zero_add] at hgo
  have hie : requests.isEmpty = false := by
    cases requests with
    | nil => exact absurd rfl hne
    | cons a as => rfl
  unfold requestRaw
  rw [if_neg (by rw [hie]; exact Bool.false_ne_true)]
  by_cases hok : requestRawOk requests
  · rw [if_pos hok]
    constructor
    · intro hcon; exact absurd hcon (by simp)
    · intro hex
      have hfalse := hgo.mpr hex
      unfold requestRawOk at hok
      rw [hfalse] at hok
      exact absurd hok (by simp)
  · rw [if_neg hok]
    constructor
    · intro _
      exact hgo.mp (Bool.eq_false_iff.mpr (fun hcon => hok hcon))
    · intro _; rfl

theorem request_raw_no_such_output_iff_witness :
    ∃ i, badBackRef [CheckedRequest.body (.unresolved 0 5)] i :=
  (request_raw_no_such_output_iff cacheMiss [CheckedRequest.body (.unresolved 0 5)]
    (by decide)).mp rfl

/-- Claim C9, counterexample to the unconditional re-queue: when the
cache can meanwhile answer the unanswered request, the pending taken
out of `in_transit` by an empty response completes through
`submit_pending` (the future resolves with the responses) and is not
pushed back onto the waiting list. -/
theorem empty_response_requeue_cex :
    onResponses cacheHeaderHit verifyNever 3 1 42 requeuePending [] =
      .submitted ⟨some [.headerByHash ⟨1, 7⟩], none⟩ := by decide
